import Mathlib

/-!
Verification of the `Node` tree abstraction from `src/node.js`.

The repository is a single JavaScript class `Node`: each node holds an `id`,
a `content` value, a `parent` back-reference and an ordered `children` array.
We embed it shallowly in three complementary ways, each faithful to the
methods it models:

* `Tree` — an inductive value capturing a finite acyclic subtree (id, content,
  ordered child list).  The downward-looking methods (`encode`, `Node.parse`,
  `child`, the pre-order iterator `[Symbol.iterator]`) are translated as
  structurally recursive functions on `Tree`.

* `Store` — an explicit object graph (`parent` and `children` maps over node
  identities) for the mutating method `setParent` (and `add` built on it) and
  for the sibling methods that read the mutable parent pointer (`index`,
  `next`, `previous`).  JavaScript object identity becomes a `Nat` identity.

* `NodeUp` — a node together with its chain of ancestors, for the purely
  upward-walking methods (`depth`, `ancestors`, `lineage`), whose recursion
  in the source follows the parent chain; on an acyclic tree that chain is
  exactly this inductive structure.

JavaScript primitive values (used for ids and contents) are embedded as
`Val`; strict equality `===` on primitives is decidable equality on `Val`
(values of different runtime type are never strictly equal).  A method that
can throw is embedded with `Except Unit`, and a JavaScript expression that
can evaluate to `undefined` is embedded with `Option`.
-/

namespace NodeJs

/-- JavaScript primitive values, as used for node ids and contents.
`===` on these is `DecidableEq`: a string is never strictly equal
to a number of the same spelling. -/
inductive Val where
  | null : Val
  | num (n : Int) : Val
  | str (s : String) : Val
deriving DecidableEq, Repr

/-- A finite acyclic tree of nodes: `id`, `content`, and the ordered
children array (exposed as `children` with alias `nodes` in the source). -/
inductive Tree where
  | mk (id : Val) (content : Val) (nodes : List Tree) : Tree

/-- Getter `get id()` (src/node.js:18). -/
def Tree.id : Tree → Val
  | .mk i _ _ => i

/-- Getter `get content()` (src/node.js:23). -/
def Tree.content : Tree → Val
  | .mk _ c _ => c

/-- Getter `get children()` and its alias `get nodes()` (src/node.js:44,49). -/
def Tree.nodes : Tree → List Tree
  | .mk _ _ ns => ns

mutual

def Tree.decEq : (t u : Tree) → Decidable (t = u)
  | .mk i c ns, .mk j d ms =>
    if h1 : i = j then
      if h2 : c = d then
        match Tree.decEqList ns ms with
        | isTrue h3 => isTrue (by rw [h1, h2, h3])
        | isFalse h3 => isFalse (by simp [h3])
      else isFalse (by simp [h2])
    else isFalse (by simp [h1])

def Tree.decEqList : (ns ms : List Tree) → Decidable (ns = ms)
  | [], [] => isTrue rfl
  | [], _ :: _ => isFalse (by simp)
  | _ :: _, [] => isFalse (by simp)
  | a :: as, b :: bs =>
    match Tree.decEq a b, Tree.decEqList as bs with
    | isTrue h1, isTrue h2 => isTrue (by rw [h1, h2])
    | isFalse h1, _ => isFalse (by simp [h1])
    | _, isFalse h2 => isFalse (by simp [h2])

end

instance : DecidableEq Tree := Tree.decEq

/-! ## Plain records (the `Object` serialization target of `encode`/`parse`)

A JavaScript plain value: a primitive, an array, or an object literal whose
fields are ordered key/value pairs.  Keeping the keys explicit makes the
field names chosen by `encode`'s default constructor observable. -/

inductive Rec where
  | null : Rec
  | num (n : Int) : Rec
  | str (s : String) : Rec
  | arr (elements : List Rec) : Rec
  | obj (fields : List (String × Rec)) : Rec

/-- Injection of a primitive value into a record position. -/
def valToRec : Val → Rec
  | .null => .null
  | .num n => .num n
  | .str s => .str s

/-- Reading back a primitive value from a record position; `none` when the
record holds an array or object (our `Tree` model carries primitive ids and
contents, see the module docstring). -/
def recToVal : Rec → Option Val
  | .null => some Val.null
  | .num n => some (Val.num n)
  | .str s => some (Val.str s)
  | _ => none

/-- JavaScript property access `object.key` on an object literal: the value
at the key, `none` (undefined) when the key is missing.  (`encode` emits
each key once, so first-match lookup is exact for every record it builds.) -/
def getField : List (String × Rec) → String → Option Rec
  | [], _ => none
  | (k, v) :: fs, key => if k = key then some v else getField fs key

/-- The keys of an object record, in order; `none` when the record is not an
object.  Used to state which fields `encode` actually emits. -/
def recKeys : Rec → Option (List String)
  | .obj fields => some (fields.map Prod.fst)
  | _ => none

mutual

/-- Method `encode()` with its default constructor
`(node, encode) => ({ id: node.id, content: node.content, nodes: encode() })`
(src/node.js:297-310): per node, an object with the three fields `id`,
`content` and `nodes`, the latter holding the encoded children in order. -/
def Tree.encode : Tree → Rec
  | .mk i c ns =>
    .obj [("id", valToRec i), ("content", valToRec c),
          ("nodes", .arr (Tree.encodeList ns))]

/-- The thunk `encode = () => this.nodes.map((node) => node.encode(...))`
passed to the constructor (src/node.js:304-308). -/
def Tree.encodeList : List Tree → List Rec
  | [] => []
  | t :: ts => t.encode :: Tree.encodeList ts

end

/-- A field value found by `getField` is structurally smaller than the field
list it came from (termination measure for `Node.parse`). -/
theorem getField_sizeOf_lt :
    ∀ (fs : List (String × Rec)) (key : String) (r : Rec),
      getField fs key = some r → sizeOf r < sizeOf fs := by
  intro fs key r h
  induction fs with
  | nil => simp [getField] at h
  | cons kv fs ih =>
    obtain ⟨k, v⟩ := kv
    simp only [getField] at h
    by_cases hk : k = key
    · simp [hk] at h
      subst h
      simp
      omega
    · simp [hk] at h
      have := ih h
      simp
      omega

mutual

/-- Static method `Node.parse(object)` with its default constructor
`(object) => ({ id: object.id, content: object.content, nodes: object.nodes })`
(src/node.js:315-329): destructure the three fields, build a fresh node, then
recursively parse and attach each element of `nodes` in order.  `none` embeds
the throw on a malformed record (no iterable `nodes`, or a non-primitive
id/content, which our `Tree` model does not carry). -/
def Node.parse (r : Rec) : Option Tree :=
  match r with
  | .obj fields =>
    match getField fields "id", getField fields "content",
          hn : getField fields "nodes" with
    | some idRec, some contentRec, some (.arr ns) =>
      match recToVal idRec, recToVal contentRec, Node.parseList ns with
      | some i, some c, some ts => some (.mk i c ts)
      | _, _, _ => none
    | _, _, _ => none
  | _ => none
termination_by sizeOf r
decreasing_by
  have h1 := getField_sizeOf_lt fields "nodes" (.arr ns) hn
  simp at h1 ⊢
  omega

/-- The loop `for (const object of nodes) { node.add(Node.parse(object)) }`
(src/node.js:325-327), collecting the parsed children in order. -/
def Node.parseList (l : List Rec) : Option (List Tree) :=
  match l with
  | [] => some []
  | r :: rs =>
    match Node.parse r, Node.parseList rs with
    | some t, some ts => some (t :: ts)
    | _, _ => none
termination_by sizeOf l
decreasing_by
  all_goals simp
  all_goals omega

end

/-! ## Children lookup and pre-order iteration (on `Tree`) -/

/-- Method `child(key)` (src/node.js:133-135):
`this.children.find((child) => child.id === key)` — the first immediate child
whose id is strictly equal to the key, undefined (`none`) when none matches. -/
def Tree.child (t : Tree) (key : Val) : Option Tree :=
  t.nodes.find? (fun c => c.id == key)

mutual

/-- The generator `*[Symbol.iterator]()` (src/node.js:229-237): yield the
node itself, then for each child in array order, yield that child's own
traversal.  The materialized sequence of yielded nodes. -/
def Tree.traverse : Tree → List Tree
  | .mk i c ns => .mk i c ns :: Tree.traverseList ns

/-- The inner loop `for (const node of this.nodes) yield* generator.apply(node)`
of the iterator, concatenating the children's traversals in order. -/
def Tree.traverseList : List Tree → List Tree
  | [] => []
  | t :: ts => t.traverse ++ Tree.traverseList ts

end

/-- Modelled from the spec: "yield the node itself first, then recursively
yield each child's own pre-order traversal, children visited in their
sequence order" — written independently of the source's generator, for the
refinement statement of the iteration claim. -/
def preorderSpec (t : Tree) : List Tree :=
  t :: (t.nodes.attach.map (fun c => preorderSpec c.val)).flatten
termination_by sizeOf t
decreasing_by
  have hm := List.sizeOf_lt_of_mem c.property
  cases t with
  | mk i cv ns =>
    simp [Tree.nodes] at hm
    simp
    omega

/-! ## Comparison -/

/-- The default `compareFunction` of `Node.compare` (src/node.js:248-250):
`(value, otherValue) => value < otherValue ? -1 : 1`, over integer keys. -/
def defaultCompareFunction (value otherValue : Int) : Int :=
  if value < otherValue then -1 else 1

/-- Static method `Node.compare(compareFunction, mapNode)` (src/node.js:247-256):
returns
the comparator
`(node, otherNode) => compareFunction(mapNode(node), mapNode(otherNode))`. -/
def Node.compare {α : Type} (compareFunction : α → α → Int)
    (mapNode : Tree → α) : Tree → Tree → Int :=
  fun node otherNode => compareFunction (mapNode node) (mapNode otherNode)

/-! ## The mutable object graph (`Store`)

JavaScript object identities become `Nat`; a store gives every identity its
`parent` back-reference and its `children` array.  Node ids and contents play
no role in the mutation and sibling-navigation methods, so the store does not
carry them. -/

structure Store where
  parent : Nat → Option Nat
  children : Nat → List Nat

/-- Helper `Node.remove(array, element)` (src/node.js:352-359): walks the array
from
the last index down and splices out every occurrence of the given element
(identity comparison); the net effect is an order-preserving removal of all
occurrences, i.e. a filter.  (The source takes variadic elements; it is only
ever called with the single node being re-parented.) -/
def Node.remove (array : List Nat) (element : Nat) : List Nat :=
  array.filter (fun e => e != element)

/-- Overwrite one node's children array (setter `set children`,
src/node.js:54-56). -/
def Store.setChildren (s : Store) (p : Nat) (l : List Nat) : Store :=
  { s with children := fun m => if m = p then l else s.children m }

/-- Overwrite one node's parent reference (raw setter `set parent`,
src/node.js:39-41). -/
def Store.setParentRef (s : Store) (n : Nat) (p : Option Nat) : Store :=
  { s with parent := fun m => if m = n then p else s.parent m }

/-- Method `setParent(parentNode)` (src/node.js:99-107): if the node currently
has a
parent, remove the node from that parent's children; if the new parent is
non-null, append the node to the new parent's children; finally set the
node's parent reference. -/
def Store.setParent (s : Store) (n : Nat) (parentNode : Option Nat) : Store :=
  let s1 :=
    match s.parent n with
    | some p => s.setChildren p (Node.remove (s.children p) n)
    | none => s
  let s2 :=
    match parentNode with
    | some p => s1.setChildren p (s1.children p ++ [n])
    | none => s1
  s2.setParentRef n parentNode

/-- Method `add(node)` (src/node.js:218-221): `node.setParent(this); return node` —
the returned reference paired with the updated store. -/
def Store.add (s : Store) (self node : Nat) : Nat × Store :=
  (node, s.setParent node (some self))

/-- JavaScript `Array.prototype.indexOf`: the first index holding the element,
`-1` when
the element is absent. -/
def jsIndexOf (l : List Nat) (x : Nat) : Int :=
  match l.findIdx? (fun e => e == x) with
  | some i => (i : Int)
  | none => -1

/-- A JavaScript array read `arr[i]` with an integer index: undefined
(`none`) when the index is negative or past the end. -/
def jsGet (l : List Nat) (i : Int) : Option Nat :=
  if i < 0 then none else l.get? i.toNat

/-- Method `index()` (src/node.js:262-266): `null` for a root, otherwise
`this.parent.nodes.indexOf(this)`. -/
def Store.index (s : Store) (n : Nat) : Option Int :=
  match s.parent n with
  | none => none
  | some p => some (jsIndexOf (s.children p) n)

/-- Method `next(count = 1)` (src/node.js:195-197):
`this.parent.nodes[this.index() + count]`.  Reading `.nodes` of a `null`
parent throws a TypeError (`.error ()`); an out-of-range array read evaluates
to undefined (`.ok none`). -/
def Store.next (s : Store) (n : Nat) (count : Int) : Except Unit (Option Nat) :=
  match s.parent n with
  | none => .error ()
  | some p => .ok (jsGet (s.children p) (jsIndexOf (s.children p) n + count))

/-- Method `previous(count = 1)` (src/node.js:201-203): `this.next(-count)`. -/
def Store.previous (s : Store) (n : Nat) (count : Int) : Except Unit (Option Nat) :=
  s.next n (-count)

/-- The bidirectional parent/children invariant of the data model (spec §3):
a node's parent lists it exactly once, and membership in a children array
implies the matching parent reference. -/
def Store.WF (s : Store) : Prop :=
  (∀ n p, s.parent n = some p → (s.children p).count n = 1) ∧
  (∀ p n, n ∈ s.children p → s.parent n = some p)

/-! ## The ancestor chain (`NodeUp`)

`depth`, `ancestors` and `lineage` recurse upward along the parent chain
only; on a finite acyclic tree that chain is this inductive structure. -/

/-- A node together with its chain of ancestors: a root, or a child of its
parent's chain; the payload is the node's id. -/
inductive NodeUp where
  | root (id : Val) : NodeUp
  | child (parent : NodeUp) (id : Val) : NodeUp
deriving DecidableEq, Repr

/-- Getter `get parent()` (src/node.js:34-36): `null` for a root. -/
def NodeUp.parent : NodeUp → Option NodeUp
  | .root _ => none
  | .child p _ => some p

/-- Method `isRoot()` (src/node.js:167-169): `this.parent === null`. -/
def NodeUp.isRoot (n : NodeUp) : Bool :=
  n.parent == none

/-- Method `depth()` (src/node.js:270-274):
`this.isRoot() ? 0 : 1 + this.parent.depth()`. -/
def NodeUp.depth : NodeUp → Nat
  | .root _ => 0
  | .child p _ => 1 + NodeUp.depth p

/-- Method `ancestors(ancestors = [])` (src/node.js:122-127): if the node is a
root,
return the accumulator; otherwise recurse on the parent with the parent
appended (`ancestors.concat(this.parent)`). -/
def NodeUp.ancestors : NodeUp → List NodeUp → List NodeUp
  | .root _, acc => acc
  | .child p _, acc => NodeUp.ancestors p (acc ++ [p])

/-- Method `lineage()` (src/node.js:117-119): `this.ancestors([this])`. -/
def NodeUp.lineage (n : NodeUp) : List NodeUp :=
  n.ancestors [n]

/-! ## The worked 5-node example

The guide's tree: node 0 is the parent of nodes 1 and 2; node 2 is the
parent of nodes 3 and 4; contents "zero" … "four". -/

def node1T : Tree := .mk (.num 1) (.str "one") []

def node3T : Tree := .mk (.num 3) (.str "three") []

def node4T : Tree := .mk (.num 4) (.str "four") []

def node2T : Tree := .mk (.num 2) (.str "two") [node3T, node4T]

def node0T : Tree := .mk (.num 0) (.str "zero") [node1T, node2T]

/-- The same example as an object graph (node identity `n` for node `n`). -/
def exampleStore : Store where
  parent := fun n =>
    if n = 1 then some 0 else if n = 2 then some 0
    else if n = 3 then some 2 else if n = 4 then some 2 else none
  children := fun n =>
    if n = 0 then [1, 2] else if n = 2 then [3, 4] else []

/-- node4 of the worked example with its ancestor chain 2, 0. -/
def node4Up : NodeUp := .child (.child (.root (.num 0)) (.num 2)) (.num 4)

/-- A store of freshly created, unconnected nodes (every node a parentless
leaf), as produced by the constructor alone. -/
def emptyStore : Store where
  parent := fun _ => none
  children := fun _ => []

/-- JavaScript property access `record.key` on an arbitrary value: field
lookup on an object, undefined (`none`) otherwise. -/
def Rec.get : Rec → String → Option Rec
  | .obj fields, key => getField fields key
  | _, _ => none

/-! ## Theorems -/

theorem recToVal_valToRec : ∀ v : Val, recToVal (valToRec v) = some v := by
  intro v
  cases v <;> rfl

theorem encodeList_eq_map :
    ∀ ts : List Tree, Tree.encodeList ts = ts.map Tree.encode := by
  intro ts
  induction ts with
  | nil => rfl
  | cons t ts ih => simp [Tree.encodeList, ih]

/-- C2 (amended): with the default constructor, `encode` produces per node a
record with exactly the fields `id`, `content` and `nodes` (not `children`):
`id` holds the node's id, `content` its content, and `nodes` the ordered
recursively encoded children (empty for a leaf). -/
theorem encode_default_shape :
    ∀ t : Tree,
      recKeys t.encode = some ["id", "content", "nodes"] ∧
      t.encode.get "id" = some (valToRec t.id) ∧
      t.encode.get "content" = some (valToRec t.content) ∧
      t.encode.get "nodes" = some (.arr (t.nodes.map Tree.encode)) := by
  intro t
  cases t with
  | mk i c ns =>
    refine ⟨rfl, rfl, ?_, ?_⟩
    · simp [Tree.encode, Tree.content, Rec.get, getField]
    · simp [Tree.encode, Rec.get, getField, Tree.nodes, encodeList_eq_map]

/-- C2 (counterexample to the claim as stated): the default `encode` of the
worked example's node1 emits exactly the keys `id`, `content`, `nodes`; no
field is named `children`. -/
theorem encode_keys_no_children_field :
    recKeys (Tree.encode node1T) = some ["id", "content", "nodes"] ∧
    "children" ∉ ["id", "content", "nodes"] := by
  constructor
  · rfl
  · decide

mutual

theorem parse_encode_aux : ∀ t : Tree, Node.parse t.encode = some t
  | .mk i c ns => by
    simp [Tree.encode, Node.parse, getField, recToVal_valToRec,
      parseList_encodeList_aux ns]

theorem parseList_encodeList_aux :
    ∀ ts : List Tree, Node.parseList (Tree.encodeList ts) = some ts
  | [] => by simp [Tree.encodeList, Node.parseList]
  | t :: ts => by
    simp [Tree.encodeList, Node.parseList, parse_encode_aux t,
      parseList_encodeList_aux ts]

end

/-- C3: `parse(node.encode())` with the default builder and default
destructuring reconstructs the tree exactly: same ids, same contents, same
shape and child order at every node (`Tree` equality is structural, and the
parsed tree is built from freshly constructed nodes by definition of
`Node.parse`). -/
theorem parse_encode_roundtrip : ∀ t : Tree, Node.parse t.encode = some t :=
  parse_encode_aux

theorem preorderSpec_eq (t : Tree) :
    preorderSpec t = t :: (t.nodes.map preorderSpec).flatten := by
  rw [preorderSpec]
  congr 1
  congr 1
  exact List.attach_map_val t.nodes preorderSpec

mutual

theorem traverse_preorder_aux : ∀ t : Tree, Tree.traverse t = preorderSpec t
  | .mk i c ns => by
    rw [preorderSpec_eq]
    simp only [Tree.traverse, Tree.nodes]
    exact congrArg _ (traverseList_preorder_aux ns)

theorem traverseList_preorder_aux :
    ∀ ts : List Tree, Tree.traverseList ts = (ts.map preorderSpec).flatten
  | [] => by simp [Tree.traverseList]
  | t :: ts => by
    simp [Tree.traverseList, traverse_preorder_aux t,
      traverseList_preorder_aux ts]

end

/-- C5: iterating a node yields the pre-order depth-first sequence of its
subtree — the node first, then each child's own pre-order sequence in
children order — and on the worked 5-node example the traversal of node0
yields exactly node0, node1, node2, node3, node4. -/
theorem traverse_is_preorder :
    (∀ t : Tree, Tree.traverse t = preorderSpec t) ∧
    Tree.traverse node0T = [node0T, node1T, node2T, node3T, node4T] := by
  constructor
  · exact traverse_preorder_aux
  · rfl

theorem ancestors_acc_append :
    ∀ (n : NodeUp) (acc : List NodeUp),
      NodeUp.ancestors n acc = acc ++ NodeUp.ancestors n [] := by
  intro n
  induction n with
  | root i => intro acc; simp [NodeUp.ancestors]
  | child p i ih =>
    intro acc
    simp only [NodeUp.ancestors]
    rw [ih (acc ++ [p]), ih ([] ++ [p])]
    simp

/-- C6: `depth()` is 0 for a root and `1 + parent.depth()` otherwise, and it
equals the length of `ancestors()`. -/
theorem depth_spec :
    (∀ n : NodeUp, n.isRoot = true → n.depth = 0) ∧
    (∀ (n p : NodeUp), n.parent = some p → n.depth = 1 + p.depth) ∧
    (∀ n : NodeUp, n.depth = (n.ancestors []).length) := by
  refine ⟨?_, ?_, ?_⟩
  · intro n h
    cases n with
    | root i => rfl
    | child p i => simp [NodeUp.isRoot, NodeUp.parent] at h
  · intro n p h
    cases n with
    | root i => simp [NodeUp.parent] at h
    | child q i =>
      simp [NodeUp.parent] at h
      subst h
      rfl
  · intro n
    induction n with
    | root i => rfl
    | child p i ih =>
      simp only [NodeUp.depth, NodeUp.ancestors, ih]
      rw [show NodeUp.ancestors p ([] ++ [p])
            = ([] ++ [p]) ++ NodeUp.ancestors p [] from
        ancestors_acc_append p ([] ++ [p])]
      simp
      omega

/-- Witness for C6 on the worked example: node4 (depth chain 4 → 2 → 0). -/
theorem depth_spec_witness :
    NodeUp.depth (NodeUp.root (.num 0)) = 0 ∧
    NodeUp.depth node4Up
      = 1 + NodeUp.depth (NodeUp.child (NodeUp.root (.num 0)) (.num 2)) ∧
    NodeUp.depth node4Up = (NodeUp.ancestors node4Up []).length :=
  ⟨depth_spec.1 (NodeUp.root (.num 0)) rfl,
   depth_spec.2.1 node4Up (NodeUp.child (NodeUp.root (.num 0)) (.num 2)) rfl,
   depth_spec.2.2 node4Up⟩

/-- C7: `lineage()` is the node itself followed by `ancestors()`; `ancestors()`
is empty for a root and lists the parent first (nearest-ancestor-first) for a
non-root. -/
theorem lineage_spec :
    (∀ n : NodeUp, n.lineage = [n] ++ n.ancestors []) ∧
    (∀ n : NodeUp, n.isRoot = true → n.ancestors [] = []) ∧
    (∀ (n p : NodeUp), n.parent = some p →
      n.ancestors [] = p :: p.ancestors []) := by
  refine ⟨?_, ?_, ?_⟩
  · intro n
    rw [NodeUp.lineage, ancestors_acc_append n [n]]
  · intro n h
    cases n with
    | root i => rfl
    | child p i => simp [NodeUp.isRoot, NodeUp.parent] at h
  · intro n p h
    cases n with
    | root i => simp [NodeUp.parent] at h
    | child q i =>
      simp [NodeUp.parent] at h
      subst h
      simp only [NodeUp.ancestors]
      rw [ancestors_acc_append]
      simp

/-- Witness for C7 on the worked example: node4 (lineage node4, node2, node0). -/
theorem lineage_spec_witness :
    NodeUp.lineage node4Up = [node4Up] ++ NodeUp.ancestors node4Up [] ∧
    NodeUp.ancestors (NodeUp.root (.num 0)) [] = [] ∧
    NodeUp.ancestors node4Up []
      = NodeUp.child (NodeUp.root (.num 0)) (.num 2)
        :: NodeUp.ancestors (NodeUp.child (NodeUp.root (.num 0)) (.num 2)) [] :=
  ⟨lineage_spec.1 node4Up,
   lineage_spec.2.1 (NodeUp.root (.num 0)) rfl,
   lineage_spec.2.2 node4Up (NodeUp.child (NodeUp.root (.num 0)) (.num 2)) rfl⟩

/-- C8: the default `compareFunction` of `Node.compare` returns `-1` exactly
when the first key is strictly less than the second, returns `1` in every
other case (equality included), and never returns `0`. -/
theorem compare_default_spec :
    ∀ value otherValue : Int,
      (defaultCompareFunction value otherValue = -1 ↔ value < otherValue) ∧
      (defaultCompareFunction value otherValue = 1 ↔ ¬ value < otherValue) ∧
      defaultCompareFunction value otherValue ≠ 0 ∧
      (value = otherValue → defaultCompareFunction value otherValue = 1) := by
  intro v w
  by_cases h : v < w <;>
    simp [defaultCompareFunction, h] <;>
    omega

/-- Witness for C8 at concrete keys: 3 < 5 gives -1; 5 ≥ 3 and the tie 4 = 4
give 1. -/
theorem compare_default_spec_witness :
    defaultCompareFunction 3 5 = -1 ∧
    defaultCompareFunction 5 3 = 1 ∧
    defaultCompareFunction 4 4 = 1 :=
  ⟨(compare_default_spec 3 5).1.mpr (by decide),
   (compare_default_spec 5 3).2.1.mpr (by decide),
   (compare_default_spec 4 4).2.2.2 rfl⟩



theorem find?_first_match (key : Val) :
    ∀ (pre : List Tree) (c : Tree) (post : List Tree),
      (∀ d ∈ pre, d.id ≠ key) → c.id = key →
      List.find? (fun x => x.id == key) (pre ++ c :: post) = some c := by
  intro pre
  induction pre with
  | nil =>
    intro c post _ hc
    rw [List.nil_append]
    rw [List.find?_cons_of_pos]
    simp [hc]
  | cons d pre ih =>
    intro c post hpre hc
    have hd : ¬ ((fun x : Tree => x.id == key) d = true) := by
      simpa using hpre d (by simp)
    rw [List.cons_append,
      @List.find?_cons_of_neg Tree (fun x => x.id == key) d
        (pre ++ c :: post) hd]
    exact ih c post (fun e he => hpre e (by simp [he])) hc

/-- C10: `child(key)` compares child ids to the key with strict equality —
it misses exactly when no child id strictly equals the key, a hit is a child
from the array whose id equals the key in value and type, the first matching
child in array order wins, and the string key "1" never matches the numeric
id 1. -/
theorem child_spec :
    (∀ (t : Tree) (key : Val),
        Tree.child t key = none ↔ ∀ c ∈ t.nodes, c.id ≠ key) ∧
    (∀ (t : Tree) (key : Val) (c : Tree),
        Tree.child t key = some c → c ∈ t.nodes ∧ c.id = key) ∧
    (∀ (t : Tree) (key : Val) (pre : List Tree) (c : Tree) (post : List Tree),
        t.nodes = pre ++ c :: post → (∀ d ∈ pre, d.id ≠ key) → c.id = key →
        Tree.child t key = some c) ∧
    Tree.child (Tree.mk .null .null [Tree.mk (.num 1) .null []]) (.str "1")
      = none := by
  refine ⟨?_, ?_, ?_, ?_⟩
  · intro t key
    rw [Tree.child, List.find?_eq_none]
    simp
  · intro t key c h
    rw [Tree.child] at h
    refine ⟨List.mem_of_find?_eq_some h, ?_⟩
    have := List.find?_some h
    simpa using this
  · intro t key pre c post hn hpre hc
    rw [Tree.child, hn]
    exact find?_first_match key pre c post hpre hc
  · rfl

/-- Witness for C10 on the worked example: looking up key 2 in node0's
children returns node2 (the first — and only — child with id 2), looking up
a missing key returns absent, and a hit is characterized by the theorem. -/
theorem child_spec_witness :
    Tree.child node0T (.num 2) = some node2T ∧
    Tree.child node0T (.num 7) = none ∧
    Tree.child (Tree.mk .null .null [Tree.mk (.num 1) .null []]) (.str "1")
      = none := by
  refine ⟨?_, ?_, child_spec.2.2.2⟩
  · exact child_spec.2.2.1 node0T (.num 2) [node1T] node2T [] rfl
      (by decide) rfl
  · exact (child_spec.1 node0T (.num 7)).mpr (by decide)

/-- C1 (counterexample to the claim as stated): on the worked 5-node example,
`node1.previous()` — index 0, count 1, target index -1, out of the children
bounds — evaluates to undefined (an absent value) and returns normally; it
does not fail with an out-of-bounds error. -/
theorem previous_returns_absent :
    Store.previous exampleStore 1 1 = Except.ok none := by rfl

/-- C1 (amended): for a node with a parent, `next(count)`/`previous(count)`
with a target index outside the bounds of the parent's children array return
an absent value (undefined) and do not fail; only calling them on a root
fails (a type error from reading the children of a null parent, which is the
`Except.error` case of `Store.next`). -/
theorem next_out_of_range_absent :
    (∀ (s : Store) (n p : Nat) (count : Int),
        s.parent n = some p →
        (jsIndexOf (s.children p) n + count < 0 ∨
          ((s.children p).length : Int) ≤ jsIndexOf (s.children p) n + count) →
        Store.next s n count = Except.ok none) ∧
    (∀ (s : Store) (n p : Nat) (count : Int),
        s.parent n = some p →
        (jsIndexOf (s.children p) n - count < 0 ∨
          ((s.children p).length : Int) ≤ jsIndexOf (s.children p) n - count) →
        Store.previous s n count = Except.ok none) := by
  have hnext : ∀ (s : Store) (n p : Nat) (count : Int),
      s.parent n = some p →
      (jsIndexOf (s.children p) n + count < 0 ∨
        ((s.children p).length : Int) ≤ jsIndexOf (s.children p) n + count) →
      Store.next s n count = Except.ok none := by
    intro s n p count hp hoob
    simp only [Store.next, hp]
    rw [jsGet]
    by_cases hi : jsIndexOf (s.children p) n + count < 0
    · simp [hi]
    · have hlen : ((s.children p).length : Int)
          ≤ jsIndexOf (s.children p) n + count := by
        rcases hoob with h | h
        · exact absurd h hi
        · exact h
      simp only [hi, if_false]
      rw [List.get?_eq_none.mpr (by omega)]
  constructor
  · exact hnext
  · intro s n p count hp hoob
    rw [Store.previous]
    exact hnext s n p (-count) hp (by omega)

/-- Witness for C1 (amended) on the worked example: `node1.previous()`
(target index -1) and `node2.next(5)` (target index 6) are both absent. -/
theorem next_out_of_range_absent_witness :
    Store.previous exampleStore 1 1 = Except.ok none ∧
    Store.next exampleStore 2 5 = Except.ok none :=
  ⟨next_out_of_range_absent.2 exampleStore 1 0 1 rfl (by decide),
   next_out_of_range_absent.1 exampleStore 2 0 5 rfl (by decide)⟩

theorem not_mem_remove (l : List Nat) (c : Nat) : c ∉ Node.remove l c := by
  simp [Node.remove]

/-- C4: on a well-formed store, after `P.add(c)`: `c.parent == P`, `P`'s
children contain `c` exactly once, `c` is gone from the children of a
different previous parent, and `add` returns the reference `c` itself. -/
theorem add_spec :
    ∀ (s : Store) (P c : Nat), Store.WF s →
      (Store.add s P c).2.parent c = some P ∧
      ((Store.add s P c).2.children P).count c = 1 ∧
      (∀ Q, s.parent c = some Q → Q ≠ P →
        c ∉ (Store.add s P c).2.children Q) ∧
      (Store.add s P c).1 = c := by
  intro s P c hwf
  obtain ⟨_, hwf2⟩ := hwf
  refine ⟨?_, ?_, ?_, rfl⟩
  · simp [Store.add, Store.setParent, Store.setParentRef]
  · simp only [Store.add, Store.setParent]
    cases hpc : s.parent c with
    | none =>
      have hnotmem : c ∉ s.children P := by
        intro hmem
        have hcontr := hwf2 P c hmem
        rw [hpc] at hcontr
        exact Option.noConfusion hcontr
      simp [Store.setParentRef, Store.setChildren, List.count_append,
        List.count_eq_zero.mpr hnotmem]
    | some Q =>
      by_cases hQP : Q = P
      · subst hQP
        simp [Store.setParentRef, Store.setChildren, List.count_append,
          List.count_eq_zero.mpr (not_mem_remove (s.children Q) c)]
      · have hnotmem : c ∉ s.children P := by
          intro hmem
          have hcontr := hwf2 P c hmem
          rw [hpc] at hcontr
          exact hQP (Option.some.injEq _ _ ▸ hcontr.symm ▸ rfl)
        have hPQ : ¬ P = Q := fun hh => hQP hh.symm
        simp [Store.setParentRef, Store.setChildren, List.count_append,
          hQP, hPQ, List.count_eq_zero.mpr hnotmem]
  · intro Q hQ hQP
    simp only [Store.add, Store.setParent, hQ]
    simp [Store.setParentRef, Store.setChildren, hQP,
      not_mem_remove (s.children Q) c]

/-- Witness for C4: adding the fresh node 1 under node 0 in a store of
unconnected nodes. -/
theorem add_spec_witness :
    (Store.add emptyStore 0 1).2.parent 1 = some 0 ∧
    ((Store.add emptyStore 0 1).2.children 0).count 1 = 1 ∧
    (Store.add emptyStore 0 1).1 = 1 := by
  have hwf : Store.WF emptyStore := by
    constructor
    · intro n p hp
      simp [emptyStore] at hp
    · intro p n hn
      simp [emptyStore] at hn
  have h := add_spec emptyStore 0 1 hwf
  exact ⟨h.1, h.2.1, h.2.2.2⟩

/-- C9: re-attaching a node `c` that already has parent `P` (as
`c.setParent(P)`, reached by `P.add(c)` or `P.push(c)`) first removes `c`
from `P`'s children and then appends it at the end, so `c` ends up in the
last position and existing siblings can be reordered. -/
theorem setParent_move_to_end :
    ∀ (s : Store) (P c : Nat),
      s.parent c = some P →
      (Store.setParent s c (some P)).children P
        = Node.remove (s.children P) c ++ [c] ∧
      ((Store.setParent s c (some P)).children P).getLast? = some c := by
  intro s P c hpc
  have h1 : (Store.setParent s c (some P)).children P
      = Node.remove (s.children P) c ++ [c] := by
    simp [Store.setParent, hpc, Store.setChildren, Store.setParentRef]
  refine ⟨h1, ?_⟩
  rw [h1]
  exact List.getLast?_concat _

/-- Witness for C9 on the worked example: re-adding node 3 under node 2
moves it past node 4, reordering the siblings to 4, 3. -/
theorem setParent_move_to_end_witness :
    (Store.setParent exampleStore 3 (some 2)).children 2 = [4, 3] :=
  ((setParent_move_to_end exampleStore 2 3 rfl).1).trans (by decide)

end NodeJs
